import Mathlib

/-!
Shallow embedding of the binary decoding pipeline of path-miner
(src/main.rs): the byte cursor (the NextPlusPlus impl for Iter over u8),
the NBT tag data model and recursive parser (Tag::parse and
Tag::parse_payload), the accessor API (get_by_name, as_compound, ...),
the region location table decoder (chunk_loc_to_byte_offset and the
1024-entry scan loop of main), and the per-chunk record extraction of
parse_chunks.

Modelling conventions:
  - a byte is a Nat (the source uses u8; all theorems either hold for
    arbitrary Nat or carry explicit bounds);
  - the cursor (Rust Iter over u8) is the list of remaining bytes, and
    each reader returns the value read together with the remaining list,
    or none where the source returns None;
  - signed machine integers are Int, produced from the big-endian word
    by explicit twos-complement conversion; the Rust cast as usize is
    modelled as reduction modulo 2 to the 64;
  - f32 and f64 payloads are kept as their raw big-endian bit words (the
    program never computes with them, it only stores and prints them);
  - the recursive parser of the source carries no fuel; termination of
    the embedding is established through an explicit fuel that is proved
    irrelevant above the input length (see the termination theorem),
    and the actual parser runs at that sufficient fuel.
-/

/-! ## Byte cursor: the NextPlusPlus impl for Iter over u8 -/

/-- One byte from the cursor (next_u8 via next_n of size 1). -/
def next_u8 : List Nat → Option (Nat × List Nat)
  | [] => none
  | b :: r => some (b, r)

/-- n bytes from the cursor (next_n_vec / next_n): the source pushes
next() n times, failing if the iterator runs dry. -/
def next_n_vec : Nat → List Nat → Option (List Nat × List Nat)
  | 0, bs => some ([], bs)
  | _ + 1, [] => none
  | n + 1, b :: bs =>
    match next_n_vec n bs with
    | none => none
    | some (v, r) => some (b :: v, r)

/-- Big-endian word value of a byte list (uN::from_be_bytes). -/
def beWord (l : List Nat) : Nat :=
  l.foldl (fun acc b => acc * 256 + b) 0

/-- Twos-complement value of an 8-bit word (i8::from_be_bytes). -/
def i8Val (b : Nat) : Int :=
  if b < 128 then (b : Int) else (b : Int) - 256

/-- Twos-complement value of a 16-bit word. -/
def i16Val (w : Nat) : Int :=
  if w < 32768 then (w : Int) else (w : Int) - 65536

/-- Twos-complement value of a 32-bit word. -/
def i32Val (w : Nat) : Int :=
  if w < 2147483648 then (w : Int) else (w : Int) - 4294967296

/-- Twos-complement value of a 64-bit word. -/
def i64Val (w : Nat) : Int :=
  if w < 9223372036854775808 then (w : Int) else (w : Int) - 18446744073709551616

/-- The Rust cast (x : i32) as usize on a 64-bit target: sign-extension
to 64 bits read back as an unsigned value, i.e. reduction mod 2^64. -/
def i32_as_usize (x : Int) : Nat :=
  (x % 18446744073709551616).toNat

def next_u16 (bs : List Nat) : Option (Nat × List Nat) :=
  match next_n_vec 2 bs with
  | none => none
  | some (v, r) => some (beWord v, r)

def next_u32 (bs : List Nat) : Option (Nat × List Nat) :=
  match next_n_vec 4 bs with
  | none => none
  | some (v, r) => some (beWord v, r)

def next_u64 (bs : List Nat) : Option (Nat × List Nat) :=
  match next_n_vec 8 bs with
  | none => none
  | some (v, r) => some (beWord v, r)

def next_i8 (bs : List Nat) : Option (Int × List Nat) :=
  match next_u8 bs with
  | none => none
  | some (b, r) => some (i8Val b, r)

def next_i16 (bs : List Nat) : Option (Int × List Nat) :=
  match next_u16 bs with
  | none => none
  | some (w, r) => some (i16Val w, r)

def next_i32 (bs : List Nat) : Option (Int × List Nat) :=
  match next_u32 bs with
  | none => none
  | some (w, r) => some (i32Val w, r)

def next_i64 (bs : List Nat) : Option (Int × List Nat) :=
  match next_u64 bs with
  | none => none
  | some (w, r) => some (i64Val w, r)

/-- next_f32: an f32 is stored by the program only as the value of
f32::from_be_bytes; we keep the 32-bit pattern itself. -/
def next_f32 (bs : List Nat) : Option (Nat × List Nat) := next_u32 bs

/-- next_f64, analogously as the raw 64-bit pattern. -/
def next_f64 (bs : List Nat) : Option (Nat × List Nat) := next_u64 bs

/-- Continuation byte of a UTF-8 sequence (0x80 to 0xBF). -/
def utf8Cont (c : Nat) : Bool :=
  128 ≤ c && c ≤ 191

/-- UTF-8 validity of a byte list, as checked by String::from_utf8:
ASCII, and 2/3/4-byte sequences excluding overlongs, surrogates and
values above U+10FFFF. -/
def utf8Valid : List Nat → Bool
  | [] => true
  | b :: rest =>
    if b < 128 then utf8Valid rest
    else if b < 194 then false
    else if b < 224 then
      match rest with
      | c1 :: rest2 => utf8Cont c1 && utf8Valid rest2
      | [] => false
    else if b < 240 then
      match rest with
      | c1 :: c2 :: rest3 =>
        (if b = 224 then decide (160 ≤ c1 && c1 ≤ 191 : Bool)
         else if b = 237 then decide (128 ≤ c1 && c1 ≤ 159 : Bool)
         else utf8Cont c1) && utf8Cont c2 && utf8Valid rest3
      | _ => false
    else if b < 245 then
      match rest with
      | c1 :: c2 :: c3 :: rest4 =>
        (if b = 240 then decide (144 ≤ c1 && c1 ≤ 191 : Bool)
         else if b = 244 then decide (128 ≤ c1 && c1 ≤ 143 : Bool)
         else utf8Cont c1) && utf8Cont c2 && utf8Cont c3 && utf8Valid rest4
      | _ => false
    else false

/-- next_string: reads len bytes and validates them as UTF-8
(String::from_utf8 returning None on Err); the string value is kept as
its byte list. -/
def next_string (len : Nat) (bs : List Nat) : Option (List Nat × List Nat) :=
  match next_n_vec len bs with
  | none => none
  | some (v, r) => if utf8Valid v then some (v, r) else none

/-- next_n_i8_vec: n signed bytes. -/
def next_n_i8_vec : Nat → List Nat → Option (List Int × List Nat)
  | 0, bs => some ([], bs)
  | n + 1, bs =>
    match next_i8 bs with
    | none => none
    | some (x, r) =>
      match next_n_i8_vec n r with
      | none => none
      | some (v, r2) => some (x :: v, r2)

/-- next_n_i32_vec: n signed 32-bit big-endian integers. -/
def next_n_i32_vec : Nat → List Nat → Option (List Int × List Nat)
  | 0, bs => some ([], bs)
  | n + 1, bs =>
    match next_i32 bs with
    | none => none
    | some (x, r) =>
      match next_n_i32_vec n r with
      | none => none
      | some (v, r2) => some (x :: v, r2)

/-- next_n_i64_vec: n signed 64-bit big-endian integers. -/
def next_n_i64_vec : Nat → List Nat → Option (List Int × List Nat)
  | 0, bs => some ([], bs)
  | n + 1, bs =>
    match next_i64 bs with
    | none => none
    | some (x, r) =>
      match next_n_i64_vec n r with
      | none => none
      | some (v, r2) => some (x :: v, r2)

/-! ## Tag tree data model -/

mutual

/-- TagPayload: the closed union over the 12 NBT payload variants. -/
inductive TagPayload where
  | Byte (x : Int)
  | Short (x : Int)
  | Int (x : Int)
  | Long (x : Int)
  | Float (bits : Nat)
  | Double (bits : Nat)
  | ByteArray (xs : List Int)
  | String (bytes : List Nat)
  | List (xs : List TagPayload)
  | Compound (xs : List Tag)
  | IntArray (xs : List Int)
  | LongArray (xs : List Int)

/-- Tag: a named node (name as UTF-8 byte list, plus a payload). -/
inductive Tag where
  | mk (name : List Nat) (payload : TagPayload)

end

def Tag.name : Tag → List Nat
  | .mk n _ => n

def Tag.payload : Tag → TagPayload
  | .mk _ p => p

/-! ## NBT parser (Tag::parse_payload / Tag::parse)

The source recursion is total because every loop iteration consumes
input; the embedding makes the recursion structural on an explicit fuel
and proves fuel irrelevance above the input length. -/

mutual

/-- Fueled Tag::parse_payload: dispatch on the type code. -/
def parsePayloadF : Nat → Nat → List Nat → Option (TagPayload × List Nat)
  | 0, _, _ => none
  | f + 1, tagId, bs =>
    if tagId = 1 then
      match next_i8 bs with
      | none => none
      | some (x, r) => some (.Byte x, r)
    else if tagId = 2 then
      match next_i16 bs with
      | none => none
      | some (x, r) => some (.Short x, r)
    else if tagId = 3 then
      match next_i32 bs with
      | none => none
      | some (x, r) => some (.Int x, r)
    else if tagId = 4 then
      match next_i64 bs with
      | none => none
      | some (x, r) => some (.Long x, r)
    else if tagId = 5 then
      match next_f32 bs with
      | none => none
      | some (x, r) => some (.Float x, r)
    else if tagId = 6 then
      match next_f64 bs with
      | none => none
      | some (x, r) => some (.Double x, r)
    else if tagId = 7 then
      match next_i32 bs with
      | none => none
      | some (len, r) =>
        match next_n_i8_vec (i32_as_usize len) r with
        | none => none
        | some (v, r2) => some (.ByteArray v, r2)
    else if tagId = 8 then
      match next_u16 bs with
      | none => none
      | some (len, r) =>
        match next_string len r with
        | none => none
        | some (s, r2) => some (.String s, r2)
    else if tagId = 9 then
      match next_u8 bs with
      | none => none
      | some (et, r) =>
        match next_i32 r with
        | none => none
        | some (cnt, r2) =>
          match parseListF f et (i32_as_usize cnt) r2 with
          | none => none
          | some (xs, r3) => some (.List xs, r3)
    else if tagId = 10 then
      match parseCompoundF f bs with
      | none => none
      | some (ms, r) => some (.Compound ms, r)
    else if tagId = 11 then
      match next_i32 bs with
      | none => none
      | some (len, r) =>
        match next_n_i32_vec (i32_as_usize len) r with
        | none => none
        | some (v, r2) => some (.IntArray v, r2)
    else if tagId = 12 then
      match next_i32 bs with
      | none => none
      | some (len, r) =>
        match next_n_i64_vec (i32_as_usize len) r with
        | none => none
        | some (v, r2) => some (.LongArray v, r2)
    else none

/-- Fueled list-element loop of the tag-9 branch: n recursive
parse_payload calls, all with the single element type code. -/
def parseListF : Nat → Nat → Nat → List Nat → Option (List TagPayload × List Nat)
  | 0, _, _, _ => none
  | _ + 1, _, 0, bs => some ([], bs)
  | f + 1, et, n + 1, bs =>
    match parsePayloadF f et bs with
    | none => none
    | some (p, r) =>
      match parseListF f et n r with
      | none => none
      | some (ps, r2) => some (p :: ps, r2)

/-- Fueled member loop of the tag-10 branch: read a type code; a zero
code ends the compound, otherwise read a name and a payload and loop. -/
def parseCompoundF : Nat → List Nat → Option (List Tag × List Nat)
  | 0, _ => none
  | f + 1, bs =>
    match next_u8 bs with
    | none => none
    | some (tid, r) =>
      if tid = 0 then some ([], r)
      else
        match next_u16 r with
        | none => none
        | some (nlen, r2) =>
          match next_string nlen r2 with
          | none => none
          | some (nm, r3) =>
            match parsePayloadF f tid r3 with
            | none => none
            | some (p, r4) =>
              match parseCompoundF f r4 with
              | none => none
              | some (ms, r5) => some (Tag.mk nm p :: ms, r5)

end

/-- Tag::parse_payload run at a fuel that is always sufficient (the
fuel-irrelevance theorem shows any fuel of at least bs.length + 2 gives
the same result). -/
def parse_payload (tagId : Nat) (bs : List Nat) : Option (TagPayload × List Nat) :=
  parsePayloadF (bs.length + 2) tagId bs

/-- Tag::parse: reads the root type code; a zero code gives None (no
root); otherwise a name-length, the name, and the payload. Note the
source uses the same None both for the no-root outcome and for every
parse failure. -/
def Tag.parse (bs : List Nat) : Option Tag :=
  match next_u8 bs with
  | none => none
  | some (tagId, r) =>
    if tagId = 0 then none
    else
      match next_u16 r with
      | none => none
      | some (nlen, r2) =>
        match next_string nlen r2 with
        | none => none
        | some (nm, r3) =>
          match parse_payload tagId r3 with
          | none => none
          | some (p, _) => some (Tag.mk nm p)

/-! ## Accessor API (GetPayloadByName::get_by_name, TagPayload::as_*)

The source panics on a missing field or on a variant mismatch; the
panic is the MissingField / TypeMismatch signal, modelled as none. -/

/-- get_by_name on a Vec of Tag: payload of the first member whose name
equals the query, none (panic "NBT format error") when none matches. -/
def get_by_name : List Tag → List Nat → Option TagPayload
  | [], _ => none
  | t :: ts, nm => if t.name = nm then some t.payload else get_by_name ts nm

/-- TagPayload::as_compound: the member list when the variant is
Compound, none (panic "NBT format error") otherwise. -/
def as_compound : TagPayload → Option (List Tag)
  | .Compound c => some c
  | _ => none

/-- TagPayload::as_list: the element list when the variant is List. -/
def as_list : TagPayload → Option (List TagPayload)
  | .List l => some l
  | _ => none

/-- TagPayload::as_string: the byte content when the variant is String. -/
def as_string : TagPayload → Option (List Nat)
  | .String s => some s
  | _ => none

/-! ## Region locator (chunk_loc_to_byte_offset and the table scan) -/

/-- chunk_loc_to_byte_offset: None when the fourth byte is zero (chunk
absent), otherwise the 3-byte big-endian sector offset times 4096. -/
def chunk_loc_to_byte_offset (b0 b1 b2 b3 : Nat) : Option Nat :=
  if b3 = 0 then none
  else some (((b0 <<< 16) + (b1 <<< 8) + (b2 <<< 0)) * 4096)

/-- The location-table scan of main: up to 1024 iterations, each
read_exact of 4 bytes (an error aborts the whole run, modelled as
Except.error) followed by chunk_loc_to_byte_offset; the loop breaks at
the first absent entry. -/
def locate_loop : Nat → List Nat → Except Unit (List Nat)
  | 0, _ => .ok []
  | f + 1, b0 :: b1 :: b2 :: b3 :: rest =>
    match chunk_loc_to_byte_offset b0 b1 b2 b3 with
    | none => .ok []
    | some off =>
      match locate_loop f rest with
      | .error e => .error e
      | .ok offs => .ok (off :: offs)
  | _ + 1, _ => .error ()

/-- The region locator: the 1024-entry scan from the start of the file. -/
def locate_chunks (file : List Nat) : Except Unit (List Nat) :=
  locate_loop 1024 file

/-! ## Chunk extractor (the per-chunk body of parse_chunks) -/

inductive ChunkError where
  | ReadFailed
  | UnsupportedCompression

/-- read_exact on the file at a position: exactly n bytes, or failure
when fewer remain. -/
def read_exact (file : List Nat) (pos n : Nat) : Option (List Nat) :=
  if pos + n ≤ file.length then some ((file.drop pos).take n) else none

/-- The per-chunk body of parse_chunks: seek to the offset, read a
4-byte big-endian chunk_length, read a 1-byte compression scheme that
ensure! requires to equal 2, then read chunk_length bytes of compressed
data (the bytes handed to ZlibDecoder). Returns the declared length and
the compressed bytes read. -/
def extract_chunk (file : List Nat) (offset : Nat) : Except ChunkError (Nat × List Nat) :=
  match read_exact file offset 4 with
  | none => .error .ReadFailed
  | some lenBytes =>
    match read_exact file (offset + 4) 1 with
    | none => .error .ReadFailed
    | some schemeBytes =>
      if schemeBytes = [2] then
        match read_exact file (offset + 5) (beWord lenBytes) with
        | none => .error .ReadFailed
        | some data => .ok (beWord lenBytes, data)
      else .error .UnsupportedCompression

/-! ## Spec-side helpers for stating the locator result shape -/

/-- The 4-byte entries of a byte table, in table-scan order. -/
def toEntries : List Nat → List (Nat × Nat × Nat × Nat)
  | b0 :: b1 :: b2 :: b3 :: rest => (b0, b1, b2, b3) :: toEntries rest
  | _ => []

/-- The present offsets up to the first absent entry. -/
def upToFirstAbsent : List (Option Nat) → List Nat
  | [] => []
  | none :: _ => []
  | some x :: r => x :: upToFirstAbsent r

/-! ## Cursor reader lemmas -/

theorem next_u8_eq {bs : List Nat} {b : Nat} {r : List Nat}
    (h : next_u8 bs = some (b, r)) : bs = b :: r := by
  cases bs with
  | nil => simp [next_u8] at h
  | cons x xs =>
    simp [next_u8] at h
    obtain ⟨h1, h2⟩ := h
    rw [h1, h2]

theorem next_n_vec_eq : ∀ {n : Nat} {bs v r : List Nat},
    next_n_vec n bs = some (v, r) → bs = v ++ r ∧ v.length = n := by
  intro n
  induction n with
  | zero =>
    intro bs v r h
    simp [next_n_vec] at h
    obtain ⟨h1, h2⟩ := h
    simp [← h1, ← h2]
  | succ m ih =>
    intro bs v r h
    cases bs with
    | nil => simp [next_n_vec] at h
    | cons x xs =>
      simp only [next_n_vec] at h
      cases hx : next_n_vec m xs with
      | none => rw [hx] at h; simp at h
      | some pr =>
        obtain ⟨v0, r0⟩ := pr
        rw [hx] at h
        simp at h
        obtain ⟨h1, h2⟩ := h
        obtain ⟨hxs, hlen⟩ := ih hx
        subst h1 h2
        simp [hxs, hlen]

theorem next_u16_eq {bs : List Nat} {w : Nat} {r : List Nat}
    (h : next_u16 bs = some (w, r)) : ∃ c : List Nat, c.length = 2 ∧ bs = c ++ r := by
  unfold next_u16 at h
  cases hx : next_n_vec 2 bs with
  | none => rw [hx] at h; simp at h
  | some pr =>
    obtain ⟨v, r0⟩ := pr
    rw [hx] at h
    simp at h
    obtain ⟨hv, hr⟩ := next_n_vec_eq hx
    exact ⟨v, hr, by rw [hv, h.2]⟩

theorem next_u32_eq {bs : List Nat} {w : Nat} {r : List Nat}
    (h : next_u32 bs = some (w, r)) : ∃ c : List Nat, c.length = 4 ∧ bs = c ++ r := by
  unfold next_u32 at h
  cases hx : next_n_vec 4 bs with
  | none => rw [hx] at h; simp at h
  | some pr =>
    obtain ⟨v, r0⟩ := pr
    rw [hx] at h
    simp at h
    obtain ⟨hv, hr⟩ := next_n_vec_eq hx
    exact ⟨v, hr, by rw [hv, h.2]⟩

theorem next_u64_eq {bs : List Nat} {w : Nat} {r : List Nat}
    (h : next_u64 bs = some (w, r)) : ∃ c : List Nat, c.length = 8 ∧ bs = c ++ r := by
  unfold next_u64 at h
  cases hx : next_n_vec 8 bs with
  | none => rw [hx] at h; simp at h
  | some pr =>
    obtain ⟨v, r0⟩ := pr
    rw [hx] at h
    simp at h
    obtain ⟨hv, hr⟩ := next_n_vec_eq hx
    exact ⟨v, hr, by rw [hv, h.2]⟩

theorem next_i8_eq {bs : List Nat} {x : Int} {r : List Nat}
    (h : next_i8 bs = some (x, r)) : ∃ c : List Nat, c.length = 1 ∧ bs = c ++ r := by
  unfold next_i8 at h
  cases hx : next_u8 bs with
  | none => rw [hx] at h; simp at h
  | some pr =>
    obtain ⟨b, r0⟩ := pr
    rw [hx] at h
    simp at h
    exact ⟨[b], rfl, by rw [next_u8_eq hx, h.2]; rfl⟩

theorem next_i16_eq {bs : List Nat} {x : Int} {r : List Nat}
    (h : next_i16 bs = some (x, r)) : ∃ c : List Nat, c.length = 2 ∧ bs = c ++ r := by
  unfold next_i16 at h
  cases hx : next_u16 bs with
  | none => rw [hx] at h; simp at h
  | some pr =>
    obtain ⟨w, r0⟩ := pr
    rw [hx] at h
    simp at h
    obtain ⟨c, hc, hbs⟩ := next_u16_eq hx
    exact ⟨c, hc, by rw [hbs, h.2]⟩

theorem next_i32_eq {bs : List Nat} {x : Int} {r : List Nat}
    (h : next_i32 bs = some (x, r)) : ∃ c : List Nat, c.length = 4 ∧ bs = c ++ r := by
  unfold next_i32 at h
  cases hx : next_u32 bs with
  | none => rw [hx] at h; simp at h
  | some pr =>
    obtain ⟨w, r0⟩ := pr
    rw [hx] at h
    simp at h
    obtain ⟨c, hc, hbs⟩ := next_u32_eq hx
    exact ⟨c, hc, by rw [hbs, h.2]⟩

theorem next_i64_eq {bs : List Nat} {x : Int} {r : List Nat}
    (h : next_i64 bs = some (x, r)) : ∃ c : List Nat, c.length = 8 ∧ bs = c ++ r := by
  unfold next_i64 at h
  cases hx : next_u64 bs with
  | none => rw [hx] at h; simp at h
  | some pr =>
    obtain ⟨w, r0⟩ := pr
    rw [hx] at h
    simp at h
    obtain ⟨c, hc, hbs⟩ := next_u64_eq hx
    exact ⟨c, hc, by rw [hbs, h.2]⟩

theorem next_string_eq {n : Nat} {bs s r : List Nat}
    (h : next_string n bs = some (s, r)) : bs = s ++ r ∧ s.length = n := by
  unfold next_string at h
  cases hx : next_n_vec n bs with
  | none => rw [hx] at h; simp at h
  | some pr =>
    obtain ⟨v, r0⟩ := pr
    rw [hx] at h
    by_cases hu : utf8Valid v
    · simp [hu] at h
      obtain ⟨hv, hlen⟩ := next_n_vec_eq hx
      rw [← h.1, ← h.2]
      exact ⟨hv, hlen⟩
    · simp [hu] at h

theorem next_n_i8_vec_suffix : ∀ {n : Nat} {bs : List Nat} {v : List Int} {r : List Nat},
    next_n_i8_vec n bs = some (v, r) → ∃ c : List Nat, bs = c ++ r := by
  intro n
  induction n with
  | zero =>
    intro bs v r h
    simp [next_n_i8_vec] at h
    exact ⟨[], by simp [h.2]⟩
  | succ m ih =>
    intro bs v r h
    simp only [next_n_i8_vec] at h
    cases hx : next_i8 bs with
    | none => rw [hx] at h; simp at h
    | some pr =>
      obtain ⟨x, r0⟩ := pr
      rw [hx] at h
      simp only [] at h
      cases hy : next_n_i8_vec m r0 with
      | none => rw [hy] at h; simp at h
      | some pr2 =>
        obtain ⟨v2, r2⟩ := pr2
        rw [hy] at h
        simp at h
        obtain ⟨c1, _, hbs⟩ := next_i8_eq hx
        obtain ⟨c2, hr0⟩ := ih hy
        exact ⟨c1 ++ c2, by rw [hbs, hr0, ← h.2, List.append_assoc]⟩

theorem next_n_i32_vec_suffix : ∀ {n : Nat} {bs : List Nat} {v : List Int} {r : List Nat},
    next_n_i32_vec n bs = some (v, r) → ∃ c : List Nat, bs = c ++ r := by
  intro n
  induction n with
  | zero =>
    intro bs v r h
    simp [next_n_i32_vec] at h
    exact ⟨[], by simp [h.2]⟩
  | succ m ih =>
    intro bs v r h
    simp only [next_n_i32_vec] at h
    cases hx : next_i32 bs with
    | none => rw [hx] at h; simp at h
    | some pr =>
      obtain ⟨x, r0⟩ := pr
      rw [hx] at h
      simp only [] at h
      cases hy : next_n_i32_vec m r0 with
      | none => rw [hy] at h; simp at h
      | some pr2 =>
        obtain ⟨v2, r2⟩ := pr2
        rw [hy] at h
        simp at h
        obtain ⟨c1, _, hbs⟩ := next_i32_eq hx
        obtain ⟨c2, hr0⟩ := ih hy
        exact ⟨c1 ++ c2, by rw [hbs, hr0, ← h.2, List.append_assoc]⟩

theorem next_n_i64_vec_suffix : ∀ {n : Nat} {bs : List Nat} {v : List Int} {r : List Nat},
    next_n_i64_vec n bs = some (v, r) → ∃ c : List Nat, bs = c ++ r := by
  intro n
  induction n with
  | zero =>
    intro bs v r h
    simp [next_n_i64_vec] at h
    exact ⟨[], by simp [h.2]⟩
  | succ m ih =>
    intro bs v r h
    simp only [next_n_i64_vec] at h
    cases hx : next_i64 bs with
    | none => rw [hx] at h; simp at h
    | some pr =>
      obtain ⟨x, r0⟩ := pr
      rw [hx] at h
      simp only [] at h
      cases hy : next_n_i64_vec m r0 with
      | none => rw [hy] at h; simp at h
      | some pr2 =>
        obtain ⟨v2, r2⟩ := pr2
        rw [hy] at h
        simp at h
        obtain ⟨c1, _, hbs⟩ := next_i64_eq hx
        obtain ⟨c2, hr0⟩ := ih hy
        exact ⟨c1 ++ c2, by rw [hbs, hr0, ← h.2, List.append_assoc]⟩

theorem next_n_i8_vec_none : ∀ {n : Nat} {bs : List Nat},
    bs.length < n → next_n_i8_vec n bs = none := by
  intro n
  induction n with
  | zero => intro bs h; omega
  | succ m ih =>
    intro bs h
    simp only [next_n_i8_vec]
    cases hx : next_i8 bs with
    | none => rfl
    | some pr =>
      obtain ⟨x, r0⟩ := pr
      obtain ⟨c, hc, hbs⟩ := next_i8_eq hx
      have hlt : r0.length < m := by
        have := congrArg List.length hbs
        simp [hc] at this
        omega
      simp [ih hlt]

theorem next_n_i32_vec_none : ∀ {n : Nat} {bs : List Nat},
    bs.length < n → next_n_i32_vec n bs = none := by
  intro n
  induction n with
  | zero => intro bs h; omega
  | succ m ih =>
    intro bs h
    simp only [next_n_i32_vec]
    cases hx : next_i32 bs with
    | none => rfl
    | some pr =>
      obtain ⟨x, r0⟩ := pr
      obtain ⟨c, hc, hbs⟩ := next_i32_eq hx
      have hlt : r0.length < m := by
        have := congrArg List.length hbs
        simp [hc] at this
        omega
      simp [ih hlt]

theorem next_n_i64_vec_none : ∀ {n : Nat} {bs : List Nat},
    bs.length < n → next_n_i64_vec n bs = none := by
  intro n
  induction n with
  | zero => intro bs h; omega
  | succ m ih =>
    intro bs h
    simp only [next_n_i64_vec]
    cases hx : next_i64 bs with
    | none => rfl
    | some pr =>
      obtain ⟨x, r0⟩ := pr
      obtain ⟨c, hc, hbs⟩ := next_i64_eq hx
      have hlt : r0.length < m := by
        have := congrArg List.length hbs
        simp [hc] at this
        omega
      simp [ih hlt]

/-! ## Step equations for the fueled parser -/

theorem parsePayloadF_zero (t : Nat) (bs : List Nat) : parsePayloadF 0 t bs = none := rfl

theorem parseListF_zero (et n : Nat) (bs : List Nat) : parseListF 0 et n bs = none := rfl

theorem parseCompoundF_zero (bs : List Nat) : parseCompoundF 0 bs = none := rfl

theorem parsePayloadF_succ1 (f : Nat) (bs : List Nat) :
    parsePayloadF (f + 1) 1 bs = match next_i8 bs with
      | none => none
      | some (x, r) => some (.Byte x, r) := rfl

theorem parsePayloadF_succ2 (f : Nat) (bs : List Nat) :
    parsePayloadF (f + 1) 2 bs = match next_i16 bs with
      | none => none
      | some (x, r) => some (.Short x, r) := rfl

theorem parsePayloadF_succ3 (f : Nat) (bs : List Nat) :
    parsePayloadF (f + 1) 3 bs = match next_i32 bs with
      | none => none
      | some (x, r) => some (.Int x, r) := rfl

theorem parsePayloadF_succ4 (f : Nat) (bs : List Nat) :
    parsePayloadF (f + 1) 4 bs = match next_i64 bs with
      | none => none
      | some (x, r) => some (.Long x, r) := rfl

theorem parsePayloadF_succ5 (f : Nat) (bs : List Nat) :
    parsePayloadF (f + 1) 5 bs = match next_f32 bs with
      | none => none
      | some (x, r) => some (.Float x, r) := rfl

theorem parsePayloadF_succ6 (f : Nat) (bs : List Nat) :
    parsePayloadF (f + 1) 6 bs = match next_f64 bs with
      | none => none
      | some (x, r) => some (.Double x, r) := rfl

theorem parsePayloadF_succ7 (f : Nat) (bs : List Nat) :
    parsePayloadF (f + 1) 7 bs = match next_i32 bs with
      | none => none
      | some (len, r) =>
        match next_n_i8_vec (i32_as_usize len) r with
        | none => none
        | some (v, r2) => some (.ByteArray v, r2) := rfl

theorem parsePayloadF_succ8 (f : Nat) (bs : List Nat) :
    parsePayloadF (f + 1) 8 bs = match next_u16 bs with
      | none => none
      | some (len, r) =>
        match next_string len r with
        | none => none
        | some (s, r2) => some (.String s, r2) := rfl

theorem parsePayloadF_succ9 (f : Nat) (bs : List Nat) :
    parsePayloadF (f + 1) 9 bs = match next_u8 bs with
      | none => none
      | some (et, r) =>
        match next_i32 r with
        | none => none
        | some (cnt, r2) =>
          match parseListF f et (i32_as_usize cnt) r2 with
          | none => none
          | some (xs, r3) => some (.List xs, r3) := rfl

theorem parsePayloadF_succ10 (f : Nat) (bs : List Nat) :
    parsePayloadF (f + 1) 10 bs = match parseCompoundF f bs with
      | none => none
      | some (ms, r) => some (.Compound ms, r) := rfl

theorem parsePayloadF_succ11 (f : Nat) (bs : List Nat) :
    parsePayloadF (f + 1) 11 bs = match next_i32 bs with
      | none => none
      | some (len, r) =>
        match next_n_i32_vec (i32_as_usize len) r with
        | none => none
        | some (v, r2) => some (.IntArray v, r2) := rfl

theorem parsePayloadF_succ12 (f : Nat) (bs : List Nat) :
    parsePayloadF (f + 1) 12 bs = match next_i32 bs with
      | none => none
      | some (len, r) =>
        match next_n_i64_vec (i32_as_usize len) r with
        | none => none
        | some (v, r2) => some (.LongArray v, r2) := rfl

theorem parsePayloadF_succ_other (f t : Nat) (bs : List Nat)
    (h1 : t ≠ 1) (h2 : t ≠ 2) (h3 : t ≠ 3) (h4 : t ≠ 4) (h5 : t ≠ 5) (h6 : t ≠ 6)
    (h7 : t ≠ 7) (h8 : t ≠ 8) (h9 : t ≠ 9) (h10 : t ≠ 10) (h11 : t ≠ 11)
    (h12 : t ≠ 12) : parsePayloadF (f + 1) t bs = none := by
  simp only [parsePayloadF]
  rw [if_neg h1, if_neg h2, if_neg h3, if_neg h4, if_neg h5, if_neg h6, if_neg h7,
    if_neg h8, if_neg h9, if_neg h10, if_neg h11, if_neg h12]

theorem parseListF_succ_zero (f et : Nat) (bs : List Nat) :
    parseListF (f + 1) et 0 bs = some ([], bs) := rfl

theorem parseListF_succ_succ (f et n : Nat) (bs : List Nat) :
    parseListF (f + 1) et (n + 1) bs = match parsePayloadF f et bs with
      | none => none
      | some (p, r) =>
        match parseListF f et n r with
        | none => none
        | some (ps, r2) => some (p :: ps, r2) := rfl

theorem parseCompoundF_succ (f : Nat) (bs : List Nat) :
    parseCompoundF (f + 1) bs = match next_u8 bs with
      | none => none
      | some (tid, r) =>
        if tid = 0 then some ([], r)
        else
          match next_u16 r with
          | none => none
          | some (nlen, r2) =>
            match next_string nlen r2 with
            | none => none
            | some (nm, r3) =>
              match parsePayloadF f tid r3 with
              | none => none
              | some (p, r4) =>
                match parseCompoundF f r4 with
                | none => none
                | some (ms, r5) => some (Tag.mk nm p :: ms, r5) := rfl

/-! ## Consumption: a successful parse consumes a nonempty prefix, and a
successful compound consumes a prefix ending in the 0 terminator. -/

theorem parse_consume : ∀ f : Nat,
    (∀ t bs p r, parsePayloadF f t bs = some (p, r) → ∃ c, c ≠ [] ∧ bs = c ++ r) ∧
    (∀ et n bs v r, parseListF f et n bs = some (v, r) → ∃ c, bs = c ++ r) ∧
    (∀ bs ms r, parseCompoundF f bs = some (ms, r) → ∃ c, bs = c ++ 0 :: r) := by
  intro f
  induction f with
  | zero =>
    refine ⟨?_, ?_, ?_⟩
    · intro t bs p r h; rw [parsePayloadF_zero] at h; exact Option.noConfusion h
    · intro et n bs v r h; rw [parseListF_zero] at h; exact Option.noConfusion h
    · intro bs ms r h; rw [parseCompoundF_zero] at h; exact Option.noConfusion h
  | succ f ih =>
    refine ⟨?_, ?_, ?_⟩
    · -- payload
      intro t bs p r h
      by_cases ht1 : t = 1
      · subst ht1
        rw [parsePayloadF_succ1] at h
        cases hx : next_i8 bs with
        | none => rw [hx] at h; simp at h
        | some pr =>
          obtain ⟨x, r0⟩ := pr
          rw [hx] at h
          simp only [Option.some.injEq, Prod.mk.injEq] at h
          obtain ⟨c, hc, hbs⟩ := next_i8_eq hx
          refine ⟨c, ?_, ?_⟩
          · intro hnil; rw [hnil] at hc; simp at hc
          · rw [hbs, h.2]
      by_cases ht2 : t = 2
      · subst ht2
        rw [parsePayloadF_succ2] at h
        cases hx : next_i16 bs with
        | none => rw [hx] at h; simp at h
        | some pr =>
          obtain ⟨x, r0⟩ := pr
          rw [hx] at h
          simp only [Option.some.injEq, Prod.mk.injEq] at h
          obtain ⟨c, hc, hbs⟩ := next_i16_eq hx
          refine ⟨c, ?_, ?_⟩
          · intro hnil; rw [hnil] at hc; simp at hc
          · rw [hbs, h.2]
      by_cases ht3 : t = 3
      · subst ht3
        rw [parsePayloadF_succ3] at h
        cases hx : next_i32 bs with
        | none => rw [hx] at h; simp at h
        | some pr =>
          obtain ⟨x, r0⟩ := pr
          rw [hx] at h
          simp only [Option.some.injEq, Prod.mk.injEq] at h
          obtain ⟨c, hc, hbs⟩ := next_i32_eq hx
          refine ⟨c, ?_, ?_⟩
          · intro hnil; rw [hnil] at hc; simp at hc
          · rw [hbs, h.2]
      by_cases ht4 : t = 4
      · subst ht4
        rw [parsePayloadF_succ4] at h
        cases hx : next_i64 bs with
        | none => rw [hx] at h; simp at h
        | some pr =>
          obtain ⟨x, r0⟩ := pr
          rw [hx] at h
          simp only [Option.some.injEq, Prod.mk.injEq] at h
          obtain ⟨c, hc, hbs⟩ := next_i64_eq hx
          refine ⟨c, ?_, ?_⟩
          · intro hnil; rw [hnil] at hc; simp at hc
          · rw [hbs, h.2]
      by_cases ht5 : t = 5
      · subst ht5
        rw [parsePayloadF_succ5] at h
        cases hx : next_f32 bs with
        | none => rw [hx] at h; simp at h
        | some pr =>
          obtain ⟨x, r0⟩ := pr
          rw [hx] at h
          simp only [Option.some.injEq, Prod.mk.injEq] at h
          obtain ⟨c, hc, hbs⟩ := next_u32_eq (show next_u32 bs = some (x, r0) from hx)
          refine ⟨c, ?_, ?_⟩
          · intro hnil; rw [hnil] at hc; simp at hc
          · rw [hbs, h.2]
      by_cases ht6 : t = 6
      · subst ht6
        rw [parsePayloadF_succ6] at h
        cases hx : next_f64 bs with
        | none => rw [hx] at h; simp at h
        | some pr =>
          obtain ⟨x, r0⟩ := pr
          rw [hx] at h
          simp only [Option.some.injEq, Prod.mk.injEq] at h
          obtain ⟨c, hc, hbs⟩ := next_u64_eq (show next_u64 bs = some (x, r0) from hx)
          refine ⟨c, ?_, ?_⟩
          · intro hnil; rw [hnil] at hc; simp at hc
          · rw [hbs, h.2]
      by_cases ht7 : t = 7
      · subst ht7
        rw [parsePayloadF_succ7] at h
        cases hx : next_i32 bs with
        | none => rw [hx] at h; simp at h
        | some pr =>
          obtain ⟨len, r0⟩ := pr
          rw [hx] at h
          simp only [] at h
          cases hy : next_n_i8_vec (i32_as_usize len) r0 with
          | none => rw [hy] at h; simp at h
          | some pr2 =>
            obtain ⟨v, r2⟩ := pr2
            rw [hy] at h
            simp only [Option.some.injEq, Prod.mk.injEq] at h
            obtain ⟨c4, hc4, hbs⟩ := next_i32_eq hx
            obtain ⟨c2, hr0⟩ := next_n_i8_vec_suffix hy
            refine ⟨c4 ++ c2, ?_, ?_⟩
            · intro hnil
              obtain ⟨hn1, _⟩ := List.append_eq_nil.mp hnil
              rw [hn1] at hc4; simp at hc4
            · rw [hbs, hr0, ← h.2]; simp [List.append_assoc]
      by_cases ht8 : t = 8
      · subst ht8
        rw [parsePayloadF_succ8] at h
        cases hx : next_u16 bs with
        | none => rw [hx] at h; simp at h
        | some pr =>
          obtain ⟨len, r0⟩ := pr
          rw [hx] at h
          simp only [] at h
          cases hy : next_string len r0 with
          | none => rw [hy] at h; simp at h
          | some pr2 =>
            obtain ⟨s, r2⟩ := pr2
            rw [hy] at h
            simp only [Option.some.injEq, Prod.mk.injEq] at h
            obtain ⟨c2, hc2, hbs⟩ := next_u16_eq hx
            obtain ⟨hr0, _⟩ := next_string_eq hy
            refine ⟨c2 ++ s, ?_, ?_⟩
            · intro hnil
              obtain ⟨hn1, _⟩ := List.append_eq_nil.mp hnil
              rw [hn1] at hc2; simp at hc2
            · rw [hbs, hr0, ← h.2]; simp [List.append_assoc]
      by_cases ht9 : t = 9
      · subst ht9
        rw [parsePayloadF_succ9] at h
        cases hx : next_u8 bs with
        | none => rw [hx] at h; simp at h
        | some pr =>
          obtain ⟨et, r0⟩ := pr
          rw [hx] at h
          simp only [] at h
          cases hy : next_i32 r0 with
          | none => rw [hy] at h; simp at h
          | some pr2 =>
            obtain ⟨cnt, r1⟩ := pr2
            rw [hy] at h
            simp only [] at h
            cases hz : parseListF f et (i32_as_usize cnt) r1 with
            | none => rw [hz] at h; simp at h
            | some pr3 =>
              obtain ⟨xs, r2⟩ := pr3
              rw [hz] at h
              simp only [Option.some.injEq, Prod.mk.injEq] at h
              obtain ⟨c4, _, hr0⟩ := next_i32_eq hy
              obtain ⟨cl, hr1⟩ := ih.2.1 et (i32_as_usize cnt) r1 xs r2 hz
              refine ⟨et :: (c4 ++ cl), ?_, ?_⟩
              · simp
              · rw [next_u8_eq hx, hr0, hr1, ← h.2]; simp [List.append_assoc]
      by_cases ht10 : t = 10
      · subst ht10
        rw [parsePayloadF_succ10] at h
        cases hx : parseCompoundF f bs with
        | none => rw [hx] at h; simp at h
        | some pr =>
          obtain ⟨ms, r0⟩ := pr
          rw [hx] at h
          simp only [Option.some.injEq, Prod.mk.injEq] at h
          obtain ⟨cc, hbs⟩ := ih.2.2 bs ms r0 hx
          refine ⟨cc ++ [0], ?_, ?_⟩
          · simp
          · rw [hbs, h.2]; simp [List.append_assoc]
      by_cases ht11 : t = 11
      · subst ht11
        rw [parsePayloadF_succ11] at h
        cases hx : next_i32 bs with
        | none => rw [hx] at h; simp at h
        | some pr =>
          obtain ⟨len, r0⟩ := pr
          rw [hx] at h
          simp only [] at h
          cases hy : next_n_i32_vec (i32_as_usize len) r0 with
          | none => rw [hy] at h; simp at h
          | some pr2 =>
            obtain ⟨v, r2⟩ := pr2
            rw [hy] at h
            simp only [Option.some.injEq, Prod.mk.injEq] at h
            obtain ⟨c4, hc4, hbs⟩ := next_i32_eq hx
            obtain ⟨c2, hr0⟩ := next_n_i32_vec_suffix hy
            refine ⟨c4 ++ c2, ?_, ?_⟩
            · intro hnil
              obtain ⟨hn1, _⟩ := List.append_eq_nil.mp hnil
              rw [hn1] at hc4; simp at hc4
            · rw [hbs, hr0, ← h.2]; simp [List.append_assoc]
      by_cases ht12 : t = 12
      · subst ht12
        rw [parsePayloadF_succ12] at h
        cases hx : next_i32 bs with
        | none => rw [hx] at h; simp at h
        | some pr =>
          obtain ⟨len, r0⟩ := pr
          rw [hx] at h
          simp only [] at h
          cases hy : next_n_i64_vec (i32_as_usize len) r0 with
          | none => rw [hy] at h; simp at h
          | some pr2 =>
            obtain ⟨v, r2⟩ := pr2
            rw [hy] at h
            simp only [Option.some.injEq, Prod.mk.injEq] at h
            obtain ⟨c4, hc4, hbs⟩ := next_i32_eq hx
            obtain ⟨c2, hr0⟩ := next_n_i64_vec_suffix hy
            refine ⟨c4 ++ c2, ?_, ?_⟩
            · intro hnil
              obtain ⟨hn1, _⟩ := List.append_eq_nil.mp hnil
              rw [hn1] at hc4; simp at hc4
            · rw [hbs, hr0, ← h.2]; simp [List.append_assoc]
      rw [parsePayloadF_succ_other f t bs ht1 ht2 ht3 ht4 ht5 ht6 ht7 ht8 ht9 ht10
        ht11 ht12] at h
      exact Option.noConfusion h
    · -- list elements
      intro et n bs v r h
      cases n with
      | zero =>
        rw [parseListF_succ_zero] at h
        simp only [Option.some.injEq, Prod.mk.injEq] at h
        exact ⟨[], by rw [h.2]; rfl⟩
      | succ k =>
        rw [parseListF_succ_succ] at h
        cases hx : parsePayloadF f et bs with
        | none => rw [hx] at h; simp at h
        | some pr =>
          obtain ⟨p, r0⟩ := pr
          rw [hx] at h
          simp only [] at h
          cases hy : parseListF f et k r0 with
          | none => rw [hy] at h; simp at h
          | some pr2 =>
            obtain ⟨ps, r2⟩ := pr2
            rw [hy] at h
            simp only [Option.some.injEq, Prod.mk.injEq] at h
            obtain ⟨c1, _, hbs⟩ := ih.1 et bs p r0 hx
            obtain ⟨c2, hr0⟩ := ih.2.1 et k r0 ps r2 hy
            exact ⟨c1 ++ c2, by rw [hbs, hr0, ← h.2]; simp [List.append_assoc]⟩
    · -- compound members
      intro bs ms r h
      rw [parseCompoundF_succ] at h
      cases ht : next_u8 bs with
      | none => rw [ht] at h; simp at h
      | some pr =>
        obtain ⟨tid, r0⟩ := pr
        rw [ht] at h
        simp only [] at h
        by_cases h0 : tid = 0
        · rw [if_pos h0] at h
          simp only [Option.some.injEq, Prod.mk.injEq] at h
          exact ⟨[], by rw [next_u8_eq ht, h0, h.2]; rfl⟩
        · rw [if_neg h0] at h
          cases hn : next_u16 r0 with
          | none => rw [hn] at h; simp at h
          | some pr2 =>
            obtain ⟨nlen, r1⟩ := pr2
            rw [hn] at h
            simp only [] at h
            cases hs : next_string nlen r1 with
            | none => rw [hs] at h; simp at h
            | some pr3 =>
              obtain ⟨nm, r2⟩ := pr3
              rw [hs] at h
              simp only [] at h
              cases hp : parsePayloadF f tid r2 with
              | none => rw [hp] at h; simp at h
              | some pr4 =>
                obtain ⟨p, r3⟩ := pr4
                rw [hp] at h
                simp only [] at h
                cases hcmp : parseCompoundF f r3 with
                | none => rw [hcmp] at h; simp at h
                | some pr5 =>
                  obtain ⟨ms2, r4⟩ := pr5
                  rw [hcmp] at h
                  simp only [Option.some.injEq, Prod.mk.injEq] at h
                  obtain ⟨hms, hr⟩ := h
                  obtain ⟨c2, _, hr0⟩ := next_u16_eq hn
                  obtain ⟨hr1, _⟩ := next_string_eq hs
                  obtain ⟨cp, _, hr2⟩ := ih.1 tid r2 p r3 hp
                  obtain ⟨cc, hr3⟩ := ih.2.2 r3 ms2 r4 hcmp
                  refine ⟨tid :: (c2 ++ nm ++ cp ++ cc), ?_⟩
                  rw [next_u8_eq ht, hr0, hr1, hr2, hr3, hr]
                  simp [List.append_assoc]

/-! ## Fuel irrelevance: above the thresholds tied to the input length,
the fueled parser's result does not depend on the fuel. -/

theorem parse_fuel : ∀ f1 f2 : Nat,
    (∀ t bs, bs.length + 2 ≤ f1 → bs.length + 2 ≤ f2 →
      parsePayloadF f1 t bs = parsePayloadF f2 t bs) ∧
    (∀ et n bs, bs.length + 3 ≤ f1 → bs.length + 3 ≤ f2 →
      parseListF f1 et n bs = parseListF f2 et n bs) ∧
    (∀ bs, bs.length + 1 ≤ f1 → bs.length + 1 ≤ f2 →
      parseCompoundF f1 bs = parseCompoundF f2 bs) := by
  intro f1
  induction f1 with
  | zero =>
    intro f2
    refine ⟨?_, ?_, ?_⟩
    · intro t bs hb1 hb2; exact absurd hb1 (by omega)
    · intro et n bs hb1 hb2; exact absurd hb1 (by omega)
    · intro bs hb1 hb2; exact absurd hb1 (by omega)
  | succ f ihf =>
    intro f2
    refine ⟨?_, ?_, ?_⟩
    · -- payload
      intro t bs hb1 hb2
      obtain ⟨g2, rfl⟩ : ∃ g2, f2 = g2 + 1 := ⟨f2 - 1, by omega⟩
      by_cases ht1 : t = 1
      · subst ht1; rw [parsePayloadF_succ1, parsePayloadF_succ1]
      by_cases ht2 : t = 2
      · subst ht2; rw [parsePayloadF_succ2, parsePayloadF_succ2]
      by_cases ht3 : t = 3
      · subst ht3; rw [parsePayloadF_succ3, parsePayloadF_succ3]
      by_cases ht4 : t = 4
      · subst ht4; rw [parsePayloadF_succ4, parsePayloadF_succ4]
      by_cases ht5 : t = 5
      · subst ht5; rw [parsePayloadF_succ5, parsePayloadF_succ5]
      by_cases ht6 : t = 6
      · subst ht6; rw [parsePayloadF_succ6, parsePayloadF_succ6]
      by_cases ht7 : t = 7
      · subst ht7; rw [parsePayloadF_succ7, parsePayloadF_succ7]
      by_cases ht8 : t = 8
      · subst ht8; rw [parsePayloadF_succ8, parsePayloadF_succ8]
      by_cases ht9 : t = 9
      · subst ht9
        rw [parsePayloadF_succ9, parsePayloadF_succ9]
        cases hx : next_u8 bs with
        | none => rfl
        | some pr =>
          obtain ⟨et, r0⟩ := pr
          simp only []
          cases hy : next_i32 r0 with
          | none => rfl
          | some pr2 =>
            obtain ⟨cnt, r1⟩ := pr2
            simp only []
            have hlb : bs.length = r0.length + 1 := by
              rw [next_u8_eq hx]; rfl
            obtain ⟨c4, hc4, hr0⟩ := next_i32_eq hy
            have hlr : r0.length = r1.length + 4 := by
              rw [hr0]; simp [hc4]; omega
            have hl : parseListF f et (i32_as_usize cnt) r1 =
                parseListF g2 et (i32_as_usize cnt) r1 :=
              (ihf g2).2.1 et (i32_as_usize cnt) r1 (by omega) (by omega)
            rw [hl]
      by_cases ht10 : t = 10
      · subst ht10
        rw [parsePayloadF_succ10, parsePayloadF_succ10]
        have hc : parseCompoundF f bs = parseCompoundF g2 bs :=
          (ihf g2).2.2 bs (by omega) (by omega)
        rw [hc]
      by_cases ht11 : t = 11
      · subst ht11; rw [parsePayloadF_succ11, parsePayloadF_succ11]
      by_cases ht12 : t = 12
      · subst ht12; rw [parsePayloadF_succ12, parsePayloadF_succ12]
      rw [parsePayloadF_succ_other f t bs ht1 ht2 ht3 ht4 ht5 ht6 ht7 ht8 ht9 ht10
        ht11 ht12,
        parsePayloadF_succ_other g2 t bs ht1 ht2 ht3 ht4 ht5 ht6 ht7 ht8 ht9 ht10
        ht11 ht12]
    · -- list elements
      intro et n bs hb1 hb2
      obtain ⟨g2, rfl⟩ : ∃ g2, f2 = g2 + 1 := ⟨f2 - 1, by omega⟩
      cases n with
      | zero => rw [parseListF_succ_zero, parseListF_succ_zero]
      | succ k =>
        rw [parseListF_succ_succ, parseListF_succ_succ]
        have hp : parsePayloadF f et bs = parsePayloadF g2 et bs :=
          (ihf g2).1 et bs (by omega) (by omega)
        rw [hp]
        cases hx : parsePayloadF g2 et bs with
        | none => rfl
        | some pr =>
          obtain ⟨p, r0⟩ := pr
          simp only []
          obtain ⟨c, hcne, hbs⟩ := (parse_consume g2).1 et bs p r0 hx
          have hcl : 1 ≤ c.length := List.length_pos.mpr hcne
          have hlb : bs.length = c.length + r0.length := by
            rw [hbs]; simp
          have hl : parseListF f et k r0 = parseListF g2 et k r0 :=
            (ihf g2).2.1 et k r0 (by omega) (by omega)
          rw [hl]
    · -- compound members
      intro bs hb1 hb2
      obtain ⟨g2, rfl⟩ : ∃ g2, f2 = g2 + 1 := ⟨f2 - 1, by omega⟩
      rw [parseCompoundF_succ, parseCompoundF_succ]
      cases ht : next_u8 bs with
      | none => rfl
      | some pr =>
        obtain ⟨tid, r0⟩ := pr
        simp only []
        by_cases h0 : tid = 0
        · rw [if_pos h0, if_pos h0]
        · rw [if_neg h0, if_neg h0]
          cases hn : next_u16 r0 with
          | none => rfl
          | some pr2 =>
            obtain ⟨nlen, r1⟩ := pr2
            simp only []
            cases hs : next_string nlen r1 with
            | none => rfl
            | some pr3 =>
              obtain ⟨nm, r2⟩ := pr3
              simp only []
              have hlb : bs.length = r0.length + 1 := by
                rw [next_u8_eq ht]; rfl
              obtain ⟨c2, hc2, hr0⟩ := next_u16_eq hn
              have hlr0 : r0.length = r1.length + 2 := by
                rw [hr0]; simp [hc2]; omega
              obtain ⟨hr1, _⟩ := next_string_eq hs
              have hlr1 : r1.length = nm.length + r2.length := by
                rw [hr1]; simp
              have hp : parsePayloadF f tid r2 = parsePayloadF g2 tid r2 :=
                (ihf g2).1 tid r2 (by omega) (by omega)
              rw [hp]
              cases hx : parsePayloadF g2 tid r2 with
              | none => rfl
              | some pr4 =>
                obtain ⟨p, r3⟩ := pr4
                simp only []
                obtain ⟨cp, hcpne, hr2⟩ := (parse_consume g2).1 tid r2 p r3 hx
                have hcpl : 1 ≤ cp.length := List.length_pos.mpr hcpne
                have hlr2 : r2.length = cp.length + r3.length := by
                  rw [hr2]; simp
                have hcm : parseCompoundF f r3 = parseCompoundF g2 r3 :=
                  (ihf g2).2.2 r3 (by omega) (by omega)
                rw [hcm]

/-! ## Claim theorems -/

/-- C4: a location-table entry whose fourth byte is 0 denotes an absent
chunk and the table scan stops right at it; any other entry contributes
the byte offset (b0 shifted left 16, plus b1 shifted left 8, plus b2,
which for byte-valued inputs equals the claimed bitwise-or packing)
times 4096; in particular the entry (0, 0, 2, 1) yields 8192. -/
theorem chunk_loc_spec :
    (∀ b0 b1 b2 b3 : Nat, b3 = 0 → chunk_loc_to_byte_offset b0 b1 b2 b3 = none) ∧
    (∀ b0 b1 b2 b3 : Nat, b3 ≠ 0 →
      chunk_loc_to_byte_offset b0 b1 b2 b3 = some ((b0 * 65536 + b1 * 256 + b2) * 4096)) ∧
    chunk_loc_to_byte_offset 0 0 2 1 = some 8192 ∧
    (∀ (f b0 b1 b2 : Nat) (rest : List Nat),
      locate_loop (f + 1) (b0 :: b1 :: b2 :: 0 :: rest) = .ok []) := by
  refine ⟨?_, ?_, rfl, ?_⟩
  · intro b0 b1 b2 b3 h
    simp [chunk_loc_to_byte_offset, h]
  · intro b0 b1 b2 b3 h
    simp [chunk_loc_to_byte_offset, h, Nat.shiftLeft_eq]
  · intro f b0 b1 b2 rest
    rfl

/-- Witness for chunk_loc_spec at concrete entries. -/
theorem chunk_loc_spec_witness :
    chunk_loc_to_byte_offset 1 2 3 0 = none ∧
    chunk_loc_to_byte_offset 0 0 2 9 = some ((0 * 65536 + 0 * 256 + 2) * 4096) ∧
    locate_loop 6 [1, 2, 3, 0] = .ok [] :=
  ⟨chunk_loc_spec.1 1 2 3 0 rfl,
   chunk_loc_spec.2.1 0 0 2 9 (by decide),
   chunk_loc_spec.2.2.2 5 1 2 3 []⟩

/-- C5 counterexample: a document starting with type code 0 gives the
same value (none) as a failing document (here the empty buffer, whose
first read fails) — Tag::parse conflates the no-root outcome with every
decode error, so the two are not distinguishable. -/
theorem parse_no_root_indistinct : Tag.parse [0] = none ∧ Tag.parse [] = none :=
  ⟨rfl, rfl⟩

/-- C5 amended: when the first byte of a document is the type code 0,
Tag::parse returns None (no root) — but None is also the result of every
decode error, so the outcome is not distinguishable from a failure (and
parse_chunks indeed logs such a chunk as one it could not parse). -/
theorem parse_no_root_none :
    (∀ rest : List Nat, Tag.parse (0 :: rest) = none) ∧ Tag.parse [] = none :=
  ⟨fun _ => rfl, rfl⟩

/-- C6: a Compound payload parse succeeds only when it actually consumed
a terminating 0 type-code byte (the consumed region is pre ++ 0 before
the returned remainder), so a stream that ends before the terminator can
never yield a Compound that silently omits trailing members — as on the
concrete truncated stream with one Byte member and no terminator, which
fails with none (the UnexpectedEnd of the source is the None of its
cursor, propagated). -/
theorem compound_terminator :
    (∀ (bs : List Nat) (p : TagPayload) (rest : List Nat),
      parse_payload 10 bs = some (p, rest) → ∃ pre, bs = pre ++ 0 :: rest) ∧
    parse_payload 10 [1, 0, 0, 65] = none := by
  constructor
  · intro bs p rest h
    unfold parse_payload at h
    obtain ⟨g, hg⟩ : ∃ g, bs.length + 2 = g + 1 := ⟨bs.length + 1, rfl⟩
    rw [hg, parsePayloadF_succ10] at h
    cases hx : parseCompoundF g bs with
    | none => rw [hx] at h; simp at h
    | some pr =>
      obtain ⟨ms, r0⟩ := pr
      rw [hx] at h
      simp only [Option.some.injEq, Prod.mk.injEq] at h
      obtain ⟨c, hbs⟩ := (parse_consume g).2.2 bs ms r0 hx
      exact ⟨c, by rw [hbs, h.2]⟩
  · rfl

/-- Witness for compound_terminator: the one-byte stream holding just
the terminator parses to the empty Compound having consumed the 0. -/
theorem compound_terminator_witness :
    parse_payload 10 [0] = some (TagPayload.Compound [], []) ∧
    ∃ pre, [0] = pre ++ 0 :: ([] : List Nat) :=
  ⟨rfl, compound_terminator.1 [0] (TagPayload.Compound []) [] rfl⟩

/-- C7: a List payload with count 0 parses, for every element type code,
to the empty List and consumes exactly 5 bytes (1 element-type byte and
4 count bytes): the remainder returned is exactly the input after those
5 bytes. -/
theorem list_count_zero (et : Nat) (rest : List Nat) :
    parse_payload 9 (et :: 0 :: 0 :: 0 :: 0 :: rest) = some (TagPayload.List [], rest) :=
  rfl

/-- C8: get_by_name returns the payload of the first member whose name
matches the query exactly — also when several members share the name —
and none (the panic that signals the MissingField condition) when no
member matches. -/
theorem get_by_name_spec :
    (∀ (nm : List Nat) (p1 p2 : TagPayload) (rest : List Tag),
      get_by_name (Tag.mk nm p1 :: Tag.mk nm p2 :: rest) nm = some p1) ∧
    (∀ (pre : List Tag) (t : Tag) (post : List Tag),
      (∀ u, u ∈ pre → u.name ≠ t.name) →
      get_by_name (pre ++ t :: post) t.name = some t.payload) ∧
    (∀ (tags : List Tag) (nm : List Nat),
      (∀ t, t ∈ tags → t.name ≠ nm) → get_by_name tags nm = none) := by
  refine ⟨?_, ?_, ?_⟩
  · intro nm p1 p2 rest
    simp [get_by_name, Tag.name, Tag.payload]
  · intro pre t post
    induction pre with
    | nil =>
      intro _
      simp [get_by_name]
    | cons u pre ih =>
      intro hne
      have hu : u.name ≠ t.name := hne u (by simp)
      simp only [List.cons_append, get_by_name]
      rw [if_neg hu]
      exact ih (fun v hv => hne v (by simp [hv]))
  · intro tags nm
    induction tags with
    | nil => intro _; rfl
    | cons u tags ih =>
      intro hne
      simp only [get_by_name]
      rw [if_neg (hne u (by simp))]
      exact ih (fun v hv => hne v (by simp [hv]))

/-- Witness for get_by_name_spec on concrete member lists. -/
theorem get_by_name_spec_witness :
    get_by_name [Tag.mk [65] (TagPayload.Byte 1), Tag.mk [65] (TagPayload.Byte 2)] [65] =
      some (TagPayload.Byte 1) ∧
    get_by_name ([Tag.mk [66] (TagPayload.Byte 9)] ++ Tag.mk [65] (TagPayload.Byte 3) :: [])
      (Tag.mk [65] (TagPayload.Byte 3)).name = some (Tag.mk [65] (TagPayload.Byte 3)).payload ∧
    get_by_name [Tag.mk [66] (TagPayload.Byte 9)] [65] = none :=
  ⟨get_by_name_spec.1 [65] (TagPayload.Byte 1) (TagPayload.Byte 2) [],
   get_by_name_spec.2.1 [Tag.mk [66] (TagPayload.Byte 9)] (Tag.mk [65] (TagPayload.Byte 3)) []
     (fun u hu => by simp at hu; subst hu; decide),
   get_by_name_spec.2.2 [Tag.mk [66] (TagPayload.Byte 9)] [65]
     (fun u hu => by simp at hu; subst hu; decide)⟩

/-- C9: as_compound yields the member list only on an actual Compound
payload (never a silent coercion: success forces the payload to be a
Compound), and on a List payload it signals the mismatch (the panic,
modelled none). -/
theorem as_compound_spec :
    (∀ xs : List TagPayload, as_compound (TagPayload.List xs) = none) ∧
    (∀ (p : TagPayload) (c : List Tag), as_compound p = some c → p = TagPayload.Compound c) := by
  constructor
  · intro xs; rfl
  · intro p c h
    cases p <;> simp [as_compound] at h
    subst h; rfl

/-- Witness for as_compound_spec on concrete payloads. -/
theorem as_compound_spec_witness :
    as_compound (TagPayload.List []) = none ∧
    TagPayload.Compound ([] : List Tag) = TagPayload.Compound [] :=
  ⟨as_compound_spec.1 [], as_compound_spec.2 (TagPayload.Compound []) [] rfl⟩

/-- C10: NBT parsing terminates on every finite input buffer: the fueled
embedding of Tag::parse_payload gives the same result for every fuel of
at least the input length plus 2 (so the recursion — every compound
member iteration and list element recursion — needs only finitely many
steps, bounded by the input length, on well-formed and malformed input
alike), and every successful parse strictly consumes input. Tag::parse
is a non-recursive wrapper over parse_payload and terminates with it. -/
theorem parse_terminates :
    (∀ (f t : Nat) (bs : List Nat), bs.length + 2 ≤ f →
      parsePayloadF f t bs = parse_payload t bs) ∧
    (∀ (t : Nat) (bs : List Nat) (p : TagPayload) (r : List Nat),
      parse_payload t bs = some (p, r) → r.length < bs.length) := by
  constructor
  · intro f t bs hf
    exact (parse_fuel f (bs.length + 2)).1 t bs hf (le_refl _)
  · intro t bs p r h
    obtain ⟨c, hcne, hbs⟩ := (parse_consume (bs.length + 2)).1 t bs p r h
    have hc1 : 1 ≤ c.length := List.length_pos.mpr hcne
    have hl : bs.length = c.length + r.length := by rw [hbs]; simp
    omega

/-- Witness for parse_terminates at concrete fuels and buffers. -/
theorem parse_terminates_witness :
    (([7] : List Nat).length + 2 ≤ 10 ∧ parsePayloadF 10 1 [7] = parse_payload 1 [7]) ∧
    (parse_payload 1 [7, 8] = some (TagPayload.Byte 7, [8]) ∧
      ([8] : List Nat).length < ([7, 8] : List Nat).length) :=
  ⟨⟨by decide, parse_terminates.1 10 1 [7] (by decide)⟩,
   ⟨rfl, parse_terminates.2 1 [7, 8] (TagPayload.Byte 7) [8] rfl⟩⟩

/-! ## Region locator claims -/

theorem locate_loop_succ (f b0 b1 b2 b3 : Nat) (rest : List Nat) :
    locate_loop (f + 1) (b0 :: b1 :: b2 :: b3 :: rest) =
      match chunk_loc_to_byte_offset b0 b1 b2 b3 with
      | none => .ok []
      | some off =>
        match locate_loop f rest with
        | .error e => .error e
        | .ok offs => .ok (off :: offs) := rfl

theorem upToFirstAbsent_le (l : List (Option Nat)) :
    (upToFirstAbsent l).length ≤ l.length := by
  induction l with
  | nil => simp [upToFirstAbsent]
  | cons hd tl ih =>
    cases hd with
    | none => simp [upToFirstAbsent]
    | some x =>
      simp only [upToFirstAbsent, List.length_cons]
      omega

theorem locate_loop_eq : ∀ (f : Nat) (bs : List Nat), 4 * f ≤ bs.length →
    locate_loop f bs = .ok (upToFirstAbsent (((toEntries bs).take f).map
      (fun e => chunk_loc_to_byte_offset e.1 e.2.1 e.2.2.1 e.2.2.2))) := by
  intro f
  induction f with
  | zero => intro bs h; rfl
  | succ f ih =>
    intro bs h
    rcases bs with _ | ⟨b0, _ | ⟨b1, _ | ⟨b2, _ | ⟨b3, rest⟩⟩⟩⟩
    · simp only [List.length_nil] at h; omega
    · simp only [List.length_cons, List.length_nil] at h; omega
    · simp only [List.length_cons, List.length_nil] at h; omega
    · simp only [List.length_cons, List.length_nil] at h; omega
    · rw [locate_loop_succ]
      simp only [toEntries]
      cases hd : chunk_loc_to_byte_offset b0 b1 b2 b3 with
      | none =>
        simp only [List.take_succ_cons, List.map_cons, hd, upToFirstAbsent]
      | some off =>
        have hrest : 4 * f ≤ rest.length := by
          simp only [List.length_cons] at h; omega
        rw [ih rest hrest]
        simp only [List.take_succ_cons, List.map_cons, hd, upToFirstAbsent]

/-- The non-monotone region table: first entry at sector 2, second entry
at sector 1, the remaining 1022 entries absent. -/
def regionTableNonMonotone : List Nat :=
  [0, 0, 2, 1] ++ [0, 0, 1, 1] ++ List.replicate 4088 0

/-- C3 counterexample: on a full, valid 1024-entry table whose present
entries point at sector 2 and then sector 1, the locator returns the
offsets 8192 and 4096 in table-scan order — a list that is not strictly
increasing, refuting the claimed monotonicity. -/
theorem locate_chunks_not_increasing :
    locate_chunks regionTableNonMonotone = .ok [8192, 4096] ∧
    ¬ List.Chain' (· < ·) [8192, 4096] :=
  ⟨rfl, by simp [List.chain'_cons]⟩

/-- C3 amended: for every file carrying a full 4096-byte table, the
locator returns exactly the decoded offsets of the entries preceding the
first absent entry, in table-scan order, and never more than 1024 of
them; the offsets are not necessarily strictly increasing. -/
theorem locate_chunks_spec (file : List Nat) (h : 4096 ≤ file.length) :
    locate_chunks file = .ok (upToFirstAbsent (((toEntries file).take 1024).map
      (fun e => chunk_loc_to_byte_offset e.1 e.2.1 e.2.2.1 e.2.2.2))) ∧
    (upToFirstAbsent (((toEntries file).take 1024).map
      (fun e => chunk_loc_to_byte_offset e.1 e.2.1 e.2.2.1 e.2.2.2))).length ≤ 1024 := by
  constructor
  · exact locate_loop_eq 1024 file (by omega)
  · have h1 := upToFirstAbsent_le (((toEntries file).take 1024).map
      (fun e => chunk_loc_to_byte_offset e.1 e.2.1 e.2.2.1 e.2.2.2))
    have h2 : (((toEntries file).take 1024).map
        (fun e => chunk_loc_to_byte_offset e.1 e.2.1 e.2.2.1 e.2.2.2)).length ≤ 1024 := by
      simp only [List.length_map, List.length_take]
      omega
    exact le_trans h1 h2

/-- Witness for locate_chunks_spec on the all-absent 4096-byte table. -/
theorem locate_chunks_spec_witness :
    4096 ≤ (List.replicate 4096 (0 : Nat)).length ∧
    (locate_chunks (List.replicate 4096 (0 : Nat)) =
      .ok (upToFirstAbsent (((toEntries (List.replicate 4096 (0 : Nat))).take 1024).map
        (fun e => chunk_loc_to_byte_offset e.1 e.2.1 e.2.2.1 e.2.2.2))) ∧
     (upToFirstAbsent (((toEntries (List.replicate 4096 (0 : Nat))).take 1024).map
        (fun e => chunk_loc_to_byte_offset e.1 e.2.1 e.2.2.1 e.2.2.2))).length ≤ 1024) :=
  ⟨by simp only [List.length_replicate, le_refl],
   locate_chunks_spec _ (by simp only [List.length_replicate, le_refl])⟩

/-! ## Chunk extractor claim -/

/-- A chunk record at offset 0 declaring length 4 with scheme byte 2,
followed by 4 payload bytes and one sector-padding byte. -/
def chunkRecordLen4 : List Nat := [0, 0, 0, 4, 2, 170, 187, 204, 221, 0]

/-- The same record with scheme byte 1 instead of 2. -/
def chunkRecordScheme1 : List Nat := [0, 0, 0, 4, 1, 170, 187, 204, 221, 0]

/-- C1: the per-chunk body of parse_chunks reads the 4-byte big-endian
length L and the scheme byte, rejects any scheme other than 2 before
reading any payload — but then reads exactly L bytes of compressed
payload, not L − 1: at the concrete record declaring L = 4 it hands the
decompressor all 4 bytes after the scheme byte, and in general a
successful extraction returns payload bytes of length exactly L. -/
theorem extract_chunk_reads_declared_length :
    extract_chunk chunkRecordLen4 0 = .ok (4, [170, 187, 204, 221]) ∧
    extract_chunk chunkRecordScheme1 0 = .error ChunkError.UnsupportedCompression ∧
    (∀ (file : List Nat) (offset len : Nat) (data : List Nat),
      extract_chunk file offset = .ok (len, data) → data.length = len) := by
  refine ⟨rfl, rfl, ?_⟩
  intro file offset len data h
  unfold extract_chunk at h
  cases h1 : read_exact file offset 4 with
  | none => rw [h1] at h; simp at h
  | some lenBytes =>
    rw [h1] at h
    simp only [] at h
    cases h2 : read_exact file (offset + 4) 1 with
    | none => rw [h2] at h; simp at h
    | some schemeBytes =>
      rw [h2] at h
      simp only [] at h
      by_cases hs : schemeBytes = [2]
      · rw [if_pos hs] at h
        cases h3 : read_exact file (offset + 5) (beWord lenBytes) with
        | none => rw [h3] at h; simp at h
        | some d =>
          rw [h3] at h
          simp only [Except.ok.injEq, Prod.mk.injEq] at h
          obtain ⟨hlen, hdata⟩ := h
          unfold read_exact at h3
          by_cases hb : offset + 5 + beWord lenBytes ≤ file.length
          · rw [if_pos hb] at h3
            simp only [Option.some.injEq] at h3
            rw [← hdata, ← h3, ← hlen]
            simp only [List.length_take, List.length_drop]
            omega
          · rw [if_neg hb] at h3; exact Option.noConfusion h3
      · rw [if_neg hs] at h; simp at h

/-- Witness for extract_chunk_reads_declared_length: the general part
applied at the concrete record. -/
theorem extract_chunk_reads_declared_length_witness :
    ([170, 187, 204, 221] : List Nat).length = 4 :=
  extract_chunk_reads_declared_length.2.2 chunkRecordLen4 0 4 [170, 187, 204, 221] rfl

/-! ## Negative array counts (the as-usize cast) -/

theorem next_i32_cons (a b c d : Nat) (r : List Nat) :
    next_i32 (a :: b :: c :: d :: r) = some (i32Val (beWord [a, b, c, d]), r) := rfl

theorem beWord_quad (a b c d : Nat) :
    beWord [a, b, c, d] = a * 16777216 + b * 65536 + c * 256 + d := by
  simp [beWord, List.foldl]
  ring

theorem next_n_i8_vec_replicate : ∀ n : Nat,
    next_n_i8_vec n (List.replicate n 0) = some (List.replicate n (0 : Int), []) := by
  intro n
  induction n with
  | zero => rfl
  | succ m ih =>
    rw [List.replicate_succ, List.replicate_succ]
    simp only [next_n_i8_vec]
    rw [show next_i8 (0 :: List.replicate m (0 : Nat)) =
      some (0, List.replicate m 0) from rfl]
    simp only []
    rw [ih]

theorem parse7_cons (a b c d : Nat) (r : List Nat) :
    parse_payload 7 (a :: b :: c :: d :: r) =
      match next_n_i8_vec (i32_as_usize (i32Val (beWord [a, b, c, d]))) r with
      | none => none
      | some (v, r2) => some (TagPayload.ByteArray v, r2) := by
  unfold parse_payload
  obtain ⟨g, hg⟩ : ∃ g, (a :: b :: c :: d :: r).length + 2 = g + 1 := ⟨_, rfl⟩
  rw [hg, parsePayloadF_succ7, next_i32_cons]

theorem parse11_cons (a b c d : Nat) (r : List Nat) :
    parse_payload 11 (a :: b :: c :: d :: r) =
      match next_n_i32_vec (i32_as_usize (i32Val (beWord [a, b, c, d]))) r with
      | none => none
      | some (v, r2) => some (TagPayload.IntArray v, r2) := by
  unfold parse_payload
  obtain ⟨g, hg⟩ : ∃ g, (a :: b :: c :: d :: r).length + 2 = g + 1 := ⟨_, rfl⟩
  rw [hg, parsePayloadF_succ11, next_i32_cons]

theorem parse12_cons (a b c d : Nat) (r : List Nat) :
    parse_payload 12 (a :: b :: c :: d :: r) =
      match next_n_i64_vec (i32_as_usize (i32Val (beWord [a, b, c, d]))) r with
      | none => none
      | some (v, r2) => some (TagPayload.LongArray v, r2) := by
  unfold parse_payload
  obtain ⟨g, hg⟩ : ∃ g, (a :: b :: c :: d :: r).length + 2 = g + 1 := ⟨_, rfl⟩
  rw [hg, parsePayloadF_succ12, next_i32_cons]

/-- C2 counterexample: a ByteArray payload whose 32-bit count field is
−1 (bytes 255 255 255 255) is not rejected with any InvalidLength
failure — the count is cast as usize to 2^64 − 1, and given a cursor
holding that many bytes the parse succeeds, reading them all. -/
theorem byte_array_neg_count_reinterpreted :
    parse_payload 7 (255 :: 255 :: 255 :: 255 :: List.replicate (2 ^ 64 - 1) 0) =
      some (TagPayload.ByteArray (List.replicate (2 ^ 64 - 1) 0), []) := by
  have e1 : i32_as_usize (i32Val (beWord [255, 255, 255, 255])) = 2 ^ 64 - 1 := by
    rw [show i32_as_usize (i32Val (beWord [255, 255, 255, 255])) =
      18446744073709551615 from rfl]
    norm_num
  rw [parse7_cons, e1, next_n_i8_vec_replicate]

/-- C2 amended: a negative ByteArray/IntArray/LongArray count is cast to
usize (a value of at least 2^64 − 2^31), so whenever fewer bytes than
that remain the element read runs the cursor dry and parse_payload
returns none — the same undistinguished failure value as every other
error; there is no InvalidLength check, and with enough input the count
is honoured as unsigned (see the counterexample). -/
theorem array_neg_count_no_invalid_length (b0 b1 b2 b3 : Nat) (rest : List Nat)
    (hb0 : 128 ≤ b0) (hb0h : b0 < 256) (hb1 : b1 < 256) (hb2 : b2 < 256)
    (hb3 : b3 < 256) (hrest : rest.length < 2 ^ 64 - 2 ^ 31) :
    parse_payload 7 (b0 :: b1 :: b2 :: b3 :: rest) = none ∧
    parse_payload 11 (b0 :: b1 :: b2 :: b3 :: rest) = none ∧
    parse_payload 12 (b0 :: b1 :: b2 :: b3 :: rest) = none := by
  have hW : beWord [b0, b1, b2, b3] = b0 * 16777216 + b1 * 65536 + b2 * 256 + b3 :=
    beWord_quad b0 b1 b2 b3
  have hWlo : 2147483648 ≤ beWord [b0, b1, b2, b3] := by rw [hW]; omega
  have hWhi : beWord [b0, b1, b2, b3] < 4294967296 := by rw [hW]; omega
  have hval : i32Val (beWord [b0, b1, b2, b3]) =
      (beWord [b0, b1, b2, b3] : Int) - 4294967296 := by
    unfold i32Val
    rw [if_neg (by omega)]
  have husize : 18446744071562067968 ≤ i32_as_usize (i32Val (beWord [b0, b1, b2, b3])) := by
    rw [hval]
    unfold i32_as_usize
    omega
  have hbig : rest.length < i32_as_usize (i32Val (beWord [b0, b1, b2, b3])) := by omega
  refine ⟨?_, ?_, ?_⟩
  · rw [parse7_cons, next_n_i8_vec_none hbig]
  · rw [parse11_cons, next_n_i32_vec_none hbig]
  · rw [parse12_cons, next_n_i64_vec_none hbig]

/-- Witness for array_neg_count_no_invalid_length: count −1, no
trailing bytes. -/
theorem array_neg_count_no_invalid_length_witness :
    parse_payload 7 [255, 255, 255, 255] = none ∧
    parse_payload 11 [255, 255, 255, 255] = none ∧
    parse_payload 12 [255, 255, 255, 255] = none :=
  array_neg_count_no_invalid_length 255 255 255 255 [] (by decide) (by decide)
    (by decide) (by decide) (by decide) (by decide)
